import Mathlib

/-!
# Verification of the MILVops productivity-dashboard data pipeline

This file gives a shallow embedding of the data-loading and aggregation
logic of `app.py` / `rvu.py` (the two scripts are line-for-line identical in
the embedded fragment), together with a model of the duration-normalization
routine that the specification describes.

The Python sources manipulate pandas dataframes of Excel rows.  The
embedding models:
  * a dataframe as a `Table` (a header of column-name strings plus a list
    of rows, each row a list of `Cell`s);
  * Python string operations (`str.strip`, `str.lower`, `str.title`,
    splitting) as executable functions over `List Char`, restricted to the
    ASCII fragment that Lean's `Char.toLower`/`Char.toUpper` implement;
  * `pd.to_datetime(errors="coerce")` as an `Option Timestamp`-valued
    coercion that parses ISO-style `YYYY-MM-DD[ HH:MM:SS]` strings and
    already-typed datetime cells (other accepted pandas formats and the
    numeric-epoch interpretation are outside the modelled domain);
  * `pd.to_numeric(errors="coerce")` as an `Option Rat`-valued coercion
    (decimal literals; other accepted pandas formats are outside the
    modelled domain);
  * `DataFrame.sort_values(..., ascending=False)` as the reverse of a
    stable ascending insertion sort.  Pandas' `nargsort` computes an
    ascending argsort with numpy's default quicksort and reverses it;
    that quicksort falls back to a stable insertion sort only for
    frames of at most 16 rows, so the model's tie order coincides with
    the program's on summaries of at most 16 groups and is
    implementation-defined beyond that — theorems therefore assert tie
    order only under that size bound, while the metric ordering itself
    holds for any correct sort;
  * `groupby(...).agg(...).reset_index()` with pandas' default
    `sort=True`, i.e. group keys listed in ascending order.
-/

/-! ## Python-style string primitives -/

/-- Whitespace as recognised by Python's `str.strip` (ASCII fragment). -/
def isSpaceChar (c : Char) : Bool :=
  c = ' ' || c = '\t' || c = '\n' || c = '\r'

/-- Drop leading whitespace characters. -/
def dropLeadingSpaces : List Char → List Char
  | [] => []
  | c :: cs => if isSpaceChar c then dropLeadingSpaces cs else c :: cs

/-- Python `str.strip()`: remove leading and trailing whitespace. -/
def strip (s : String) : String :=
  ⟨(dropLeadingSpaces (dropLeadingSpaces s.data).reverse).reverse⟩

/-- Python `str.lower()` (ASCII fragment). -/
def lowerStr (s : String) : String :=
  ⟨s.data.map Char.toLower⟩

/-- A character Python's `str.title` treats as cased (ASCII letters). -/
def isAsciiAlpha (c : Char) : Bool :=
  decide ((65 ≤ c.toNat ∧ c.toNat ≤ 90) ∨ (97 ≤ c.toNat ∧ c.toNat ≤ 122))

/-- Worker for `titleCase`: the Boolean argument records whether the
previous character was cased (a letter). -/
def titleAux : List Char → Bool → List Char
  | [], _ => []
  | c :: cs, prevAlpha =>
    (if prevAlpha then c.toLower else c.toUpper) :: titleAux cs (isAsciiAlpha c)

/-- Python `str.title()` (ASCII fragment): the first letter of every
letter-run is upper-cased, the rest lower-cased. -/
def titleCase (s : String) : String :=
  ⟨titleAux s.data false⟩

/-- Worker for `splitOnChar` (accumulates the current field reversed). -/
def splitOnCharAux (sep : Char) : List Char → List Char → List (List Char)
  | [], acc => [acc.reverse]
  | c :: cs, acc =>
    if c = sep then acc.reverse :: splitOnCharAux sep cs []
    else splitOnCharAux sep cs (c :: acc)

/-- Split a character list on a separator character (Python `str.split(sep)`). -/
def splitOnChar (sep : Char) (l : List Char) : List (List Char) :=
  splitOnCharAux sep l []

/-- The numeric value of an ASCII digit. -/
def digitVal (c : Char) : Option Nat :=
  if 48 ≤ c.toNat ∧ c.toNat ≤ 57 then some (c.toNat - 48) else none

/-- Parse a nonempty all-digit character list as a natural number. -/
def parseNatChars : List Char → Option Nat
  | [] => none
  | l => l.foldl (fun acc c => do
      let a ← acc
      let d ← digitVal c
      pure (a * 10 + d)) (some 0)

/-- Parse a decimal literal (optional sign, digits, optional fraction) as a
rational, as `pd.to_numeric` would. -/
def parseRatChars (l : List Char) : Option Rat :=
  let (neg, l) := match l with
    | '-' :: rest => (true, rest)
    | _ => (false, l)
  let q : Option Rat :=
    match splitOnChar '.' l with
    | [i] => (parseNatChars i).map (fun n => (n : Rat))
    | [i, f] => do
      let n ← parseNatChars i
      let fr ← parseNatChars f
      pure ((n : Rat) + (fr : Rat) / ((10 : Rat) ^ f.length))
    | _ => none
  q.map (fun v => if neg then -v else v)

/-! ## Timestamps

`pd.to_datetime` values are modelled as a linearised day index plus the
seconds elapsed within the day; `.dt.normalize()` zeroes the time-of-day
component.  The day index `(y*12 + (m-1))*31 + (d-1)` linearises the date
triple (the civil calendar itself is irrelevant to the verified claims). -/

structure Timestamp where
  day : Nat
  secs : Nat
deriving DecidableEq, Repr

/-- Model of `.dt.normalize()`: keep the day, zero the time of day (midnight). -/
def normalizeTs (ts : Timestamp) : Timestamp := ⟨ts.day, 0⟩

/-- Chronological order on timestamps. -/
def tsLeB (a b : Timestamp) : Bool :=
  a.day < b.day || (a.day = b.day && a.secs ≤ b.secs)

/-- Parse `HH:MM:SS` into seconds within a day. -/
def parseClockChars (l : List Char) : Option Nat :=
  match splitOnChar ':' l with
  | [h, m, s] => do
    let hn ← parseNatChars h
    let mn ← parseNatChars m
    let sn ← parseNatChars s
    if hn < 24 ∧ mn < 60 ∧ sn < 60 then pure (hn * 3600 + mn * 60 + sn) else none
  | _ => none

/-- Parse `YYYY-MM-DD` into a linearised day index. -/
def parseYMD (l : List Char) : Option Nat :=
  match splitOnChar '-' l with
  | [y, m, d] => do
    let yn ← parseNatChars y
    let mn ← parseNatChars m
    let dn ← parseNatChars d
    if 1 ≤ mn ∧ mn ≤ 12 ∧ 1 ≤ dn ∧ dn ≤ 31 then
      pure ((yn * 12 + (mn - 1)) * 31 + (dn - 1))
    else none
  | _ => none

/-- Parse an ISO-style datetime string `YYYY-MM-DD[ HH:MM:SS]`. -/
def parseDateString (s : String) : Option Timestamp :=
  match splitOnChar ' ' (strip s).data with
  | [d] => (parseYMD d).map (fun day => ⟨day, 0⟩)
  | [d, t] => do
    let day ← parseYMD d
    let secs ← parseClockChars t
    pure ⟨day, secs⟩
  | _ => none

/-! ## Cells and tables -/

/-- One spreadsheet cell: blank/NaN, text, numeric, or an already-typed
datetime value. -/
inductive Cell where
  | empty
  | str (s : String)
  | num (q : Rat)
  | date (ts : Timestamp)
deriving DecidableEq, Repr

/-- A dataframe: column names plus rows. -/
structure Table where
  header : List String
  rows : List (List Cell)
deriving DecidableEq, Repr

/-- Read the cell of a row at a column position (blank if out of range). -/
def getCell (r : List Cell) (i : Nat) : Cell :=
  r.getD i Cell.empty

/-- Write the cell of a row at a column position (padding with blanks if
the row is shorter; pandas rows are rectangular so the padding is inert). -/
def setCell (r : List Cell) (i : Nat) (c : Cell) : List Cell :=
  (r ++ List.replicate (i + 1 - r.length) Cell.empty).set i c

/-- Model of `pd.to_datetime(errors="coerce")` on one cell: `None`/`NaT` on failure. -/
def toDatetimeCoerce : Cell → Option Timestamp
  | Cell.date ts => some ts
  | Cell.str s => parseDateString s
  | _ => none

/-- Model of `pd.to_numeric(errors="coerce")` on one cell: `None`/`NaN` on failure. -/
def toNumericCoerce : Cell → Option Rat
  | Cell.num q => some q
  | Cell.str s => parseRatChars (strip s).data
  | _ => none

/-- Python `str(...)` on a cell value (`astype(str)`); `str(NaN) = "nan"`. -/
def cellToString : Cell → String
  | Cell.str s => s
  | Cell.empty => "nan"
  | Cell.num q => toString q.num ++ (if q.den = 1 then "" else "/" ++ toString q.den)
  | Cell.date ts => "ts:" ++ toString ts.day ++ ":" ++ toString ts.secs

/-! ## `load_data` (app.py lines 16-51, rvu.py lines 17-52) -/

/-- The constant `REQUIRED_COLUMNS` (the Python set literal, in written order). -/
def REQUIRED_COLUMNS : List String :=
  ["date", "author", "procedure", "points", "shift", "points/half day", "procedure/half"]

/-- Model of `[col for col in REQUIRED_COLUMNS if col not in lower_columns]` where
`lower_columns` is the lower-cased stripped header. -/
def missingColumns (header : List String) : List String :=
  REQUIRED_COLUMNS.filter (fun c => decide (c ∉ header.map lowerStr))

/-- Model of `col_map = {col.lower(): col for col in df.columns}` followed by
`col_map[key]`: the last column whose lower-casing is `key`. -/
def colName (header : List String) (key : String) : String :=
  ((header.filter (fun c => lowerStr c == key)).getLast?).getD ""

/-- The position of the column `col_map[key]` resolves to. -/
def colIdx (header : List String) (key : String) : Nat :=
  header.findIdx (fun c => c == colName header key)

/-- The metric columns: every required column except `date` and `author`. -/
def numericKeys : List String :=
  REQUIRED_COLUMNS.filter (fun c => !(c == "date" || c == "author"))

/-- Positions of the metric columns. -/
def numericIdxs (header : List String) : List Nat :=
  numericKeys.map (colIdx header)

/-- Model of `df[date_col] = pd.to_datetime(df[date_col], errors="coerce").dt.normalize()`
on one row (`NaT` modelled as a blank cell). -/
def dateStep (dIdx : Nat) (r : List Cell) : List Cell :=
  setCell r dIdx
    (match toDatetimeCoerce (getCell r dIdx) with
     | some ts => Cell.date (normalizeTs ts)
     | none => Cell.empty)

/-- The row-keeping predicate of `df.dropna(subset=[date_col])`. -/
def dateNotNa (dIdx : Nat) (r : List Cell) : Bool :=
  match getCell r dIdx with
  | Cell.empty => false
  | _ => true

/-- Model of `df[numeric_cols] = df[numeric_cols].apply(pd.to_numeric, errors="coerce").fillna(0)`
on one row. -/
def numericStep (nIdxs : List Nat) (r : List Cell) : List Cell :=
  nIdxs.foldl (fun acc i => setCell acc i (Cell.num ((toNumericCoerce (getCell acc i)).getD 0))) r

/-- Model of `df[author_col] = df[author_col].astype(str).str.strip().str.title()`
on one row. -/
def authorStep (aIdx : Nat) (r : List Cell) : List Cell :=
  setCell r aIdx (Cell.str (titleCase (strip (cellToString (getCell r aIdx)))))

/-- The body of `load_data` after column validation: process the date
column, drop rows whose date failed to parse, coerce the metric columns,
normalize the author column. -/
def processRows (header : List String) (rows : List (List Cell)) : List (List Cell) :=
  (((rows.map (dateStep (colIdx header "date"))).filter (dateNotNa (colIdx header "date"))).map
    (numericStep (numericIdxs header))).map (authorStep (colIdx header "author"))

/-- Model of `load_data`: the input is `none` when reading/parsing the Excel file
raises (the `except` branch); otherwise the parsed first sheet.  Returns
`Except.error` exactly where the Python function reports `st.error` and
returns `None`, so an error outcome carries no record collection. -/
def loadData (input : Option Table) : Except String Table :=
  match input with
  | none => Except.error "Error processing file"
  | some t =>
    let header := t.header.map strip
    let missing := missingColumns header
    if missing.isEmpty then
      Except.ok ⟨header, processRows header t.rows⟩
    else
      Except.error ("Missing columns: " ++ titleCase (String.intercalate ", " missing))

/-! ## Filters and aggregation of `main` (rvu.py lines 141-208, app.py lines 144-291) -/

/-- The author string of a (post-load) row. -/
def rowAuthor (aIdx : Nat) (r : List Cell) : String :=
  match getCell r aIdx with
  | Cell.str s => s
  | _ => ""

/-- The metric value of a (post-load) row. -/
def rowMetricVal (mIdx : Nat) (r : List Cell) : Rat :=
  match getCell r mIdx with
  | Cell.num q => q
  | _ => 0

/-- Model of `df[date_col].between(start, end)` and of `(df[date_col] >= start) & (df[date_col] <= end)`
as a row predicate. -/
def dateBetween (dIdx : Nat) (lo hi : Timestamp) (r : List Cell) : Bool :=
  match getCell r dIdx with
  | Cell.date ts => tsLeB lo ts && tsLeB ts hi
  | _ => false

/-- Model of `df[author_col].isin(selected)` as a row predicate. -/
def authorIsin (aIdx : Nat) (selected : List String) (r : List Cell) : Bool :=
  match getCell r aIdx with
  | Cell.str s => selected.contains s
  | _ => false

/-- The provider-analytics filter (app.py lines 242-246): date in range and
author among the selected providers. -/
def analyticsFilter (dIdx aIdx : Nat) (lo hi : Timestamp) (selected : List String)
    (rows : List (List Cell)) : List (List Cell) :=
  rows.filter (fun r => dateBetween dIdx lo hi r && authorIsin aIdx selected r)

/-- The distinct values of a list in first-occurrence order (a pandas
column's `.unique()`). -/
def uniqueKeys (l : List String) : List String :=
  l.foldl (fun acc a => if a ∈ acc then acc else acc ++ [a]) []

/-! ### Sorting

`sort_values` and the key ordering of `groupby` are modelled with a stable
insertion sort, generic over a decidable relation. -/

/-- Insert an element before the first list element it relates to
(stable: among equals, the inserted — originally earlier — element
comes first). -/
def insertOrd (le : α → α → Prop) [DecidableRel le] (x : α) : List α → List α
  | [] => [x]
  | y :: ys => if le x y then x :: y :: ys else y :: insertOrd le x ys

/-- Stable insertion sort. -/
def sortOrd (le : α → α → Prop) [DecidableRel le] : List α → List α
  | [] => []
  | x :: xs => insertOrd le x (sortOrd le xs)

/-- Strict lexicographic order on character lists (by code point). -/
def charListLtB : List Char → List Char → Bool
  | [], [] => false
  | [], _ :: _ => true
  | _ :: _, [] => false
  | a :: as, b :: bs =>
    if a.toNat < b.toNat then true
    else if b.toNat < a.toNat then false
    else charListLtB as bs

/-- Strict lexicographic order on strings. -/
def strLt (a b : String) : Prop := charListLtB a.data b.data = true

instance : DecidableRel strLt := fun a b => by unfold strLt; infer_instance

/-- Lexicographic order on strings (the order pandas sorts group keys in). -/
def strLe (a b : String) : Prop := charListLtB b.data a.data = false

instance : DecidableRel strLe := fun a b => by unfold strLe; infer_instance

/-- Mean of a list of rationals (`.agg("mean")` on one group). -/
def meanList (l : List Rat) : Rat := l.sum / (l.length : Rat)

/-- Model of `df.groupby(author_col).agg({metric: "mean"}).reset_index()` restricted
to one metric column: group keys in ascending order (pandas `sort=True`),
each paired with the group's mean metric. -/
def groupbyMean (aIdx mIdx : Nat) (rows : List (List Cell)) : List (String × Rat) :=
  (sortOrd strLe (uniqueKeys (rows.map (rowAuthor aIdx)))).map
    (fun a => (a, meanList ((rows.filter (fun r => rowAuthor aIdx r == a)).map (rowMetricVal mIdx))))

/-- Comparison of summary entries by metric value. -/
def metricLe (x y : String × Rat) : Prop := x.2 ≤ y.2

instance : DecidableRel metricLe := fun x y => by unfold metricLe; infer_instance

/-- Model of `provider_summary.sort_values(metric, ascending=False)`:
pandas computes an ascending argsort and reverses it.  The ascending sort
is modelled as stable; numpy's default quicksort is in fact a stable
insertion sort for at most 16 elements and unstable above, so the model's
tie order is exact only for summaries of at most 16 groups (the
metric-descending order is exact for every size). -/
def sortValuesDesc (l : List (String × Rat)) : List (String × Rat) :=
  (sortOrd metricLe l).reverse

/-- The provider-summary bar chart data of the trend tab: grouped means,
sorted by the metric, descending. -/
def providerSummarySorted (aIdx mIdx : Nat) (rows : List (List Cell)) : List (String × Rat) :=
  sortValuesDesc (groupbyMean aIdx mIdx rows)

/-- Outcome of the trend-analysis step: either the explicit user-visible
"no data" state or the aggregated view. -/
inductive TrendView where
  | noData
  | view (summary : List (String × Rat))
deriving DecidableEq, Repr

/-- The trend-analysis flow (rvu.py lines 145-177): filter to the selected
date range; if the result is empty, warn and return with no aggregation;
otherwise aggregate the provider summary. -/
def trendAnalysis (df : Table) (lo hi : Timestamp) : TrendView :=
  let dIdx := colIdx df.header "date"
  let dfRange := df.rows.filter (dateBetween dIdx lo hi)
  if dfRange.isEmpty then TrendView.noData
  else
    TrendView.view
      (providerSummarySorted (colIdx df.header "author") (colIdx df.header "points/half day") dfRange)

/-! ## Duration normalizer

Modelled from the spec: the turnaround-time normalization routine (spec
sections 4.1 and 8) is described by the specification but its code is not
among the repository files under verification, so it is reconstructed here
from the specification's words: null/blank/unrecognized input maps to
`known = false`; a closed synonym table maps known free-text phrases;
`D.HH:MM:SS` / `D HH:MM:SS` and `H:MM:SS` clock strings convert to
minutes; negative durations are treated as unknown; already-structured
values pass through. -/

/-- Per-record result of duration normalization (spec section 4.1 output
contract `{minutes: float, known: bool}`). -/
structure DurationResult where
  minutes : Rat
  known : Bool
deriving DecidableEq, Repr

/-- A raw duration field: null/missing, free text, or an already-structured
duration value (in minutes). -/
inductive RawDuration where
  | null
  | text (s : String)
  | structuredMinutes (m : Rat)
deriving DecidableEq, Repr

/-- Modelled from the spec: the closed free-text synonym table
("an hour" to 60, "a day" to 1440); unmatched text is unknown, not guessed. -/
def synonymTable : List (String × Rat) := [("an hour", 60), ("a day", 1440)]

/-- Clock value `HH:MM:SS` as minutes: `H*60 + M + S/60`. -/
def clockToMinutes (h m s : Nat) : Rat :=
  (h : Rat) * 60 + (m : Rat) + (s : Rat) / 60

/-- Modelled from the spec: parse a plain clock string `H:MM:SS`. -/
def parseDurClock (l : List Char) : Option Rat :=
  match splitOnChar ':' l with
  | [h, m, s] => do
    let hn ← parseNatChars h
    let mn ← parseNatChars m
    let sn ← parseNatChars s
    if mn < 60 ∧ sn < 60 then pure (clockToMinutes hn mn sn) else none
  | _ => none

/-- Modelled from the spec: parse a day-prefixed clock string
`D.HH:MM:SS` or `D HH:MM:SS` (day contributes `D * 1440` minutes). -/
def parseDayClock (l : List Char) : Option Rat :=
  let comb := fun (d : List Char) (rest : List Char) => do
    let dn ← parseNatChars d
    let c ← parseDurClock rest
    pure ((dn : Rat) * 1440 + c)
  match splitOnChar '.' l with
  | [d, rest] => comb d rest
  | _ =>
    match splitOnChar ' ' l with
    | [d, rest] => comb d rest
    | _ => none

/-- Modelled from the spec: parse a raw duration text — synonym table
first, then day-prefixed clock, then plain clock; blank is unknown. -/
def parseDurationText (s : String) : Option Rat :=
  let t := strip s
  if t = "" then none
  else
    match (synonymTable.filter (fun p => p.1 == t)).head? with
    | some p => some p.2
    | none =>
      match parseDayClock t.data with
      | some m => some m
      | none => parseDurClock t.data

/-- Modelled from the spec: the duration normalizer (spec section 4.1):
total over all raw inputs, never negative, unknown on anything
unrecognized. -/
def normalizeDuration : RawDuration → DurationResult
  | RawDuration.null => ⟨0, false⟩
  | RawDuration.structuredMinutes m => if m < 0 then ⟨0, false⟩ else ⟨m, true⟩
  | RawDuration.text s =>
    match parseDurationText s with
    | some m => if m < 0 then ⟨0, false⟩ else ⟨m, true⟩
    | none => ⟨0, false⟩

/-! ## Remaining definitions: decidability, derived notions, concrete inputs -/

instance {ε α : Type} [DecidableEq ε] [DecidableEq α] : DecidableEq (Except ε α)
  | Except.error e, Except.error f =>
    match decEq e f with
    | isTrue h => isTrue (by rw [h])
    | isFalse h => isFalse (fun hh => by cases hh; exact h rfl)
  | Except.error _, Except.ok _ => isFalse (fun hh => by cases hh)
  | Except.ok _, Except.error _ => isFalse (fun hh => by cases hh)
  | Except.ok a, Except.ok b =>
    match decEq a b with
    | isTrue h => isTrue (by rw [h])
    | isFalse h => isFalse (fun hh => by cases hh; exact h rfl)

/-- The author-name normalization applied at ingestion:
`.str.strip().str.title()`. -/
def normalizeAuthor (s : String) : String := titleCase (strip s)

/-- The descending order produced by `sort_values(metric, ascending=False)`
on a key-ascending group summary: metric strictly descending, ties in
strictly descending key order. -/
def pairLexDesc (x y : String × Rat) : Prop :=
  y.2 < x.2 ∨ (y.2 = x.2 ∧ strLt y.1 x.1)

/-- The ascending counterpart of `pairLexDesc` (the invariant of the
stable ascending sort before reversal). -/
def pairLexAsc (x y : String × Rat) : Prop :=
  x.2 < y.2 ∨ (x.2 = y.2 ∧ strLt x.1 y.1)

/-- A header in canonical form matching all required columns. -/
def stdHeader : List String :=
  ["Date", "Author", "Procedure", "Points", "Shift", "Points/Half Day", "Procedure/Half"]

/-- A two-row input whose first row has an unparseable date. -/
def c1Table : Table :=
  ⟨stdHeader,
  [[Cell.str "not a date", Cell.str " smith, JOHN ", Cell.num 1, Cell.num 2, Cell.num 1,
    Cell.num 3, Cell.num 4],
   [Cell.str "2024-01-15", Cell.str " doe, JANE ", Cell.num 5, Cell.num 6, Cell.num 1,
    Cell.num 7, Cell.num 8]]⟩

/-- What `load_data` produces on `c1Table`: the bad-date row is gone. -/
def c1Df : Table :=
  ⟨stdHeader,
  [[Cell.date ⟨752942, 0⟩, Cell.str "Doe, Jane", Cell.num 5, Cell.num 6, Cell.num 1,
    Cell.num 7, Cell.num 8]]⟩

/-- An input missing most required columns. -/
def c3Table : Table := ⟨["Date", "Author"], [[Cell.str "2024-01-15", Cell.str "a"]]⟩

/-- A loaded, empty dataframe (canonical header, no rows). -/
def emptyDf : Table := ⟨stdHeader, []⟩

/-- Post-load rows (author at 0, metric at 1): three providers in
first-occurrence order Bob, Alice, Carol, with equal metric values. -/
def c7Rows : List (List Cell) :=
  [[Cell.str "Bob", Cell.num 5], [Cell.str "Alice", Cell.num 5], [Cell.str "Carol", Cell.num 5]]

/-- An input whose column names match the required set only after
stripping and lower-casing. -/
def c10Table : Table :=
  ⟨["  DATE ", "Author", "PROCEDURE", "points", "Shift", "Points/Half Day", "procedure/half"],
  []⟩

/-! ## Row access lemmas -/

theorem getCell_append_replicate (r : List Cell) (k j : Nat) :
    getCell (r ++ List.replicate k Cell.empty) j = getCell r j := by
  unfold getCell
  rcases Nat.lt_or_ge j r.length with h | h
  · rw [List.getD_eq_getElem?_getD, List.getD_eq_getElem?_getD,
      List.getElem?_append_left h]
  · rw [List.getD_eq_getElem?_getD, List.getD_eq_getElem?_getD,
      List.getElem?_append_right h]
    rw [List.getElem?_eq_none h]
    rcases Nat.lt_or_ge (j - r.length) k with h2 | h2
    · rw [List.getElem?_replicate_of_lt h2]
      rfl
    · rw [List.getElem?_eq_none (by simpa using h2)]

theorem lt_length_pad (r : List Cell) (i : Nat) :
    i < (r ++ List.replicate (i + 1 - r.length) Cell.empty).length := by
  rw [List.length_append, List.length_replicate]
  omega

theorem getCell_setCell_self (r : List Cell) (i : Nat) (c : Cell) :
    getCell (setCell r i c) i = c := by
  unfold setCell getCell
  rw [List.getD_eq_getElem?_getD, List.getElem?_set_self' ]
  rw [List.getElem?_eq_getElem (lt_length_pad r i)]
  rfl

theorem getCell_setCell_ne (r : List Cell) (i j : Nat) (c : Cell) (h : i ≠ j) :
    getCell (setCell r i c) j = getCell r j := by
  unfold setCell
  have : getCell ((r ++ List.replicate (i + 1 - r.length) Cell.empty).set i c) j
      = getCell (r ++ List.replicate (i + 1 - r.length) Cell.empty) j := by
    unfold getCell
    rw [List.getD_eq_getElem?_getD, List.getD_eq_getElem?_getD, List.getElem?_set_ne h]
  rw [this, getCell_append_replicate]

theorem numericStep_getCell_notMem (nIdxs : List Nat) (r : List Cell) (j : Nat)
    (h : j ∉ nIdxs) : getCell (numericStep nIdxs r) j = getCell r j := by
  induction nIdxs generalizing r with
  | nil => rfl
  | cons i rest ih =>
    have hji : i ≠ j := fun hh => h (hh ▸ List.mem_cons_self i rest)
    have hjr : j ∉ rest := fun hh => h (List.mem_cons_of_mem _ hh)
    simp only [numericStep, List.foldl_cons] at *
    rw [ih _ hjr, getCell_setCell_ne _ _ _ _ hji]

theorem numericStep_getCell_mem (nIdxs : List Nat) (r : List Cell) (j : Nat)
    (hnd : nIdxs.Nodup) (h : j ∈ nIdxs) :
    getCell (numericStep nIdxs r) j = Cell.num ((toNumericCoerce (getCell r j)).getD 0) := by
  induction nIdxs generalizing r with
  | nil => cases h
  | cons i rest ih =>
    have hnd' : rest.Nodup := (List.nodup_cons.mp hnd).2
    have hni : i ∉ rest := (List.nodup_cons.mp hnd).1
    simp only [numericStep, List.foldl_cons] at *
    rcases List.mem_cons.mp h with rfl | hr
    · have hnm := numericStep_getCell_notMem rest
        (setCell r j (Cell.num ((toNumericCoerce (getCell r j)).getD 0))) j hni
      simp only [numericStep] at hnm
      rw [hnm, getCell_setCell_self]
    · have hij : i ≠ j := fun hh => hni (hh ▸ hr)
      rw [ih _ hnd' hr, getCell_setCell_ne _ _ _ _ hij]

/-! ## Column resolution lemmas -/

theorem required_mem_of_missing_nil {header : List String} {k : String}
    (hmiss : missingColumns header = []) (hk : k ∈ REQUIRED_COLUMNS) :
    k ∈ header.map lowerStr := by
  have := List.filter_eq_nil_iff.mp hmiss k hk
  simpa using this

theorem colName_spec {header : List String} {k : String}
    (hmiss : missingColumns header = []) (hk : k ∈ REQUIRED_COLUMNS) :
    colName header k ∈ header ∧ lowerStr (colName header k) = k := by
  obtain ⟨nm, hnm, hlow⟩ := List.mem_map.mp (required_mem_of_missing_nil hmiss hk)
  have hfil : nm ∈ header.filter (fun c => lowerStr c == k) :=
    List.mem_filter.mpr ⟨hnm, by simpa using hlow⟩
  have hne : header.filter (fun c => lowerStr c == k) ≠ [] := by
    intro hh
    rw [hh] at hfil
    cases hfil
  obtain ⟨x, hx⟩ := Option.isSome_iff_exists.mp (List.getLast?_isSome.mpr hne)
  have hxmem := List.mem_of_getLast?_eq_some hx
  have hxspec := List.mem_filter.mp hxmem
  have hcn : colName header k = x := by
    unfold colName
    rw [hx]
    rfl
  refine ⟨hcn ▸ hxspec.1, ?_⟩
  rw [hcn]
  simpa using hxspec.2

theorem colName_selfBeq {header : List String} (k : String) :
    (fun c => c == colName header k) (colName header k) = true := by
  simp

theorem colIdx_lt {header : List String} {k : String}
    (hmiss : missingColumns header = []) (hk : k ∈ REQUIRED_COLUMNS) :
    colIdx header k < header.length := by
  apply List.findIdx_lt_length_of_exists
  exact ⟨colName header k, (colName_spec hmiss hk).1, by simp⟩

theorem colIdx_inj {header : List String} {k₁ k₂ : String}
    (hmiss : missingColumns header = []) (h₁ : k₁ ∈ REQUIRED_COLUMNS)
    (h₂ : k₂ ∈ REQUIRED_COLUMNS) (hne : k₁ ≠ k₂) :
    colIdx header k₁ ≠ colIdx header k₂ := by
  intro heq
  have hl₁ := colIdx_lt hmiss h₁
  have hl₂ := colIdx_lt hmiss h₂
  have e₁ : header.get ⟨colIdx header k₁, hl₁⟩ = colName header k₁ := by
    have := @List.findIdx_getElem _ (fun c => c == colName header k₁) header hl₁
    simpa [List.get_eq_getElem, colIdx] using this
  have e₂ : header.get ⟨colIdx header k₂, hl₂⟩ = colName header k₂ := by
    have := @List.findIdx_getElem _ (fun c => c == colName header k₂) header hl₂
    simpa [List.get_eq_getElem, colIdx] using this
  have : colName header k₁ = colName header k₂ := by
    rw [← e₁, ← e₂]
    congr 1
    exact Fin.ext heq
  apply hne
  rw [← (colName_spec hmiss h₁).2, ← (colName_spec hmiss h₂).2, this]

theorem numericKeys_sub : ∀ k ∈ numericKeys, k ∈ REQUIRED_COLUMNS := by decide

theorem numericKeys_nodup : numericKeys.Nodup := by decide

theorem numericIdxs_nodup {header : List String}
    (hmiss : missingColumns header = []) : (numericIdxs header).Nodup := by
  apply List.Nodup.map_on _ numericKeys_nodup
  intro x hx y hy hxy
  by_contra hne
  exact colIdx_inj hmiss (numericKeys_sub x hx) (numericKeys_sub y hy) hne hxy

theorem dateIdx_not_mem_numericIdxs {header : List String}
    (hmiss : missingColumns header = []) :
    colIdx header "date" ∉ numericIdxs header := by
  intro hmem
  obtain ⟨k, hk, hkeq⟩ := List.mem_map.mp hmem
  have hne : ("date" : String) ≠ k := by
    intro he
    exact (by decide : "date" ∉ numericKeys) (he ▸ hk)
  exact colIdx_inj hmiss (by decide) (numericKeys_sub k hk) hne hkeq.symm

theorem authorIdx_not_mem_numericIdxs {header : List String}
    (hmiss : missingColumns header = []) :
    colIdx header "author" ∉ numericIdxs header := by
  intro hmem
  obtain ⟨k, hk, hkeq⟩ := List.mem_map.mp hmem
  have hne : ("author" : String) ≠ k := by
    intro he
    exact (by decide : "author" ∉ numericKeys) (he ▸ hk)
  exact colIdx_inj hmiss (by decide) (numericKeys_sub k hk) hne hkeq.symm

theorem dateIdx_ne_authorIdx {header : List String}
    (hmiss : missingColumns header = []) :
    colIdx header "date" ≠ colIdx header "author" :=
  colIdx_inj hmiss (by decide) (by decide) (by decide)

/-! ## `load_data` structure lemmas -/

theorem loadData_ok_iff {t : Table} {df : Table} :
    loadData (some t) = Except.ok df ↔
      missingColumns (t.header.map strip) = [] ∧
      df = ⟨t.header.map strip, processRows (t.header.map strip) t.rows⟩ := by
  dsimp only [loadData]
  by_cases hm : (missingColumns (t.header.map strip)).isEmpty
  · rw [if_pos hm]
    simp [List.isEmpty_iff.mp hm, eq_comm]
  · rw [if_neg hm]
    simp only [List.isEmpty_iff] at hm
    constructor
    · intro hh
      cases hh
    · rintro ⟨h1, -⟩
      exact absurd h1 hm

theorem mem_processRows {header : List String} {rows : List (List Cell)}
    {r' : List Cell} :
    r' ∈ processRows header rows ↔
      ∃ r ∈ rows,
        dateNotNa (colIdx header "date") (dateStep (colIdx header "date") r) = true ∧
        r' = authorStep (colIdx header "author")
          (numericStep (numericIdxs header) (dateStep (colIdx header "date") r)) := by
  unfold processRows
  constructor
  · intro h
    obtain ⟨r₂, hr₂, hr₂e⟩ := List.mem_map.mp h
    obtain ⟨r₁, hr₁, hr₁e⟩ := List.mem_map.mp hr₂
    obtain ⟨hr₀, hkeep⟩ := List.mem_filter.mp hr₁
    obtain ⟨r, hr, hre⟩ := List.mem_map.mp hr₀
    refine ⟨r, hr, by rw [hre]; exact hkeep, ?_⟩
    rw [← hr₂e, ← hr₁e, hre]
  · rintro ⟨r, hr, hkeep, rfl⟩
    apply List.mem_map.mpr
    refine ⟨numericStep (numericIdxs header) (dateStep (colIdx header "date") r), ?_, rfl⟩
    apply List.mem_map.mpr
    refine ⟨dateStep (colIdx header "date") r, ?_, rfl⟩
    apply List.mem_filter.mpr
    exact ⟨List.mem_map.mpr ⟨r, hr, rfl⟩, hkeep⟩

/-- The date cell after `dateStep` is exactly the (normalized) parse result. -/
theorem dateStep_getCell_self (dIdx : Nat) (r : List Cell) :
    getCell (dateStep dIdx r) dIdx =
      (match toDatetimeCoerce (getCell r dIdx) with
       | some ts => Cell.date (normalizeTs ts)
       | none => Cell.empty) := by
  unfold dateStep
  rw [getCell_setCell_self]

theorem dateStep_getCell_ne (dIdx j : Nat) (r : List Cell) (h : dIdx ≠ j) :
    getCell (dateStep dIdx r) j = getCell r j := by
  unfold dateStep
  rw [getCell_setCell_ne _ _ _ _ h]

theorem authorStep_getCell_self (aIdx : Nat) (r : List Cell) :
    getCell (authorStep aIdx r) aIdx =
      Cell.str (normalizeAuthor (cellToString (getCell r aIdx))) := by
  unfold authorStep normalizeAuthor
  rw [getCell_setCell_self]

theorem authorStep_getCell_ne (aIdx j : Nat) (r : List Cell) (h : aIdx ≠ j) :
    getCell (authorStep aIdx r) j = getCell r j := by
  unfold authorStep
  rw [getCell_setCell_ne _ _ _ _ h]

/-- Full characterization of the cells of a processed row: the date cell
holds the normalized parse of a retained source row's date, the metric
cells hold the numeric coercion (0 on failure) of the source cells, and
the author cell holds the stripped title-cased source value. -/
theorem processed_row_cells {header : List String} {rows : List (List Cell)}
    {r' : List Cell} (hmiss : missingColumns header = [])
    (h : r' ∈ processRows header rows) :
    ∃ r ∈ rows, ∃ ts : Timestamp,
      toDatetimeCoerce (getCell r (colIdx header "date")) = some ts ∧
      getCell r' (colIdx header "date") = Cell.date (normalizeTs ts) ∧
      (∀ k ∈ numericKeys, getCell r' (colIdx header k) =
        Cell.num ((toNumericCoerce (getCell r (colIdx header k))).getD 0)) ∧
      getCell r' (colIdx header "author") =
        Cell.str (normalizeAuthor (cellToString (getCell r (colIdx header "author")))) := by
  obtain ⟨r, hr, hkeep, rfl⟩ := mem_processRows.mp h
  have hda := dateIdx_ne_authorIdx hmiss
  have hdn := dateIdx_not_mem_numericIdxs hmiss
  have han := authorIdx_not_mem_numericIdxs hmiss
  have hnd := numericIdxs_nodup hmiss
  obtain ⟨ts, hts⟩ : ∃ ts, toDatetimeCoerce (getCell r (colIdx header "date")) = some ts := by
    rcases hp : toDatetimeCoerce (getCell r (colIdx header "date")) with _ | ts
    · exfalso
      unfold dateNotNa at hkeep
      rw [dateStep_getCell_self, hp] at hkeep
      simp at hkeep
    · exact ⟨ts, rfl⟩
  refine ⟨r, hr, ts, hts, ?_, ?_, ?_⟩
  · rw [authorStep_getCell_ne _ _ _ (Ne.symm hda),
      numericStep_getCell_notMem _ _ _ hdn, dateStep_getCell_self, hts]
  · intro k hk
    have hkm : colIdx header k ∈ numericIdxs header := List.mem_map.mpr ⟨k, hk, rfl⟩
    have hak : colIdx header "author" ≠ colIdx header k := fun he => han (he ▸ hkm)
    have hdk : colIdx header "date" ≠ colIdx header k := fun he => hdn (he ▸ hkm)
    rw [authorStep_getCell_ne _ _ _ hak, numericStep_getCell_mem _ _ _ hnd hkm,
      dateStep_getCell_ne _ _ _ hdk]
  · rw [authorStep_getCell_self, numericStep_getCell_notMem _ _ _ han,
      dateStep_getCell_ne _ _ _ hda]

/-- Row count of a load: exactly the source rows whose date parses. -/
theorem processRows_length {header : List String} (rows : List (List Cell)) :
    (processRows header rows).length =
      (rows.filter (fun r => (toDatetimeCoerce (getCell r (colIdx header "date"))).isSome)).length := by
  unfold processRows
  rw [List.length_map, List.length_map, List.filter_map, List.length_map]
  congr 1
  apply List.filter_congr
  intro r hr
  unfold Function.comp dateNotNa
  rw [dateStep_getCell_self]
  rcases toDatetimeCoerce (getCell r (colIdx header "date")) with _ | ts <;> simp

/-! ## Claim theorems -/

/-- C3: for every source whose column set is missing at least one required
field, loading surfaces a blocking error and returns no data (the error
outcome of `load_data` carries no record collection, so no partially
processed collection is produced). -/
theorem load_data_missing_columns_error (t : Table)
    (h : missingColumns (t.header.map strip) ≠ []) :
    ∃ e, loadData (some t) = Except.error e := by
  refine ⟨"Missing columns: " ++ titleCase (String.intercalate ", "
    (missingColumns (t.header.map strip))), ?_⟩
  dsimp only [loadData]
  rw [if_neg]
  simpa [List.isEmpty_iff] using h

theorem load_data_missing_columns_error_witness :
    missingColumns (c3Table.header.map strip) ≠ [] ∧
      ∃ e, loadData (some c3Table) = Except.error e :=
  ⟨by decide, load_data_missing_columns_error c3Table (by decide)⟩

/-- C8: `load_data` is total: on every input — including a failed file
read, modelled as `none` — it either returns a dataframe or an error
value; there is no third outcome (the Python `try`/`except` catches every
exception and returns `None` after reporting). -/
theorem load_data_total :
    (∀ input : Option Table,
      (∃ df, loadData input = Except.ok df) ∨ (∃ e, loadData input = Except.error e)) ∧
    (∃ e, loadData none = Except.error e) := by
  constructor
  · intro input
    rcases h : loadData input with e | df
    · exact Or.inr ⟨e, rfl⟩
    · exact Or.inl ⟨df, rfl⟩
  · exact ⟨"Error processing file", rfl⟩

/-- C10: required-column validation is insensitive to letter case and
surrounding whitespace — a source matching the required set after
stripping and lower-casing loads successfully — and each required field
resolves (via `col_map`) to an actual column of the cleaned header whose
lower-casing is the required key. -/
theorem load_data_column_resolution_case_insensitive (t : Table)
    (h : ∀ k ∈ REQUIRED_COLUMNS, ∃ nm ∈ t.header, lowerStr (strip nm) = k) :
    (∃ df, loadData (some t) = Except.ok df) ∧
    (∀ k ∈ REQUIRED_COLUMNS,
      colName (t.header.map strip) k ∈ t.header.map strip ∧
      lowerStr (colName (t.header.map strip) k) = k) := by
  have hmiss : missingColumns (t.header.map strip) = [] := by
    apply List.filter_eq_nil_iff.mpr
    intro k hk
    obtain ⟨nm, hnm, hlow⟩ := h k hk
    simp only [decide_eq_true_eq, not_not]
    exact List.mem_map.mpr ⟨strip nm, List.mem_map.mpr ⟨nm, hnm, rfl⟩, hlow⟩
  exact ⟨⟨_, loadData_ok_iff.mpr ⟨hmiss, rfl⟩⟩,
    fun k hk => colName_spec hmiss hk⟩

theorem load_data_column_resolution_case_insensitive_witness :
    (∀ k ∈ REQUIRED_COLUMNS, ∃ nm ∈ c10Table.header, lowerStr (strip nm) = k) ∧
    ((∃ df, loadData (some c10Table) = Except.ok df) ∧
      (∀ k ∈ REQUIRED_COLUMNS,
        colName (c10Table.header.map strip) k ∈ c10Table.header.map strip ∧
        lowerStr (colName (c10Table.header.map strip) k) = k)) :=
  ⟨by decide, load_data_column_resolution_case_insensitive c10Table (by decide)⟩

/-- C4: when the date-range filter eliminates all records, the trend step
yields the explicit `noData` state and produces no aggregated view at all
(in particular no zero-valued aggregate), and being a total function it
raises nothing. -/
theorem trend_analysis_empty_no_data (df : Table) (lo hi : Timestamp)
    (h : (df.rows.filter (dateBetween (colIdx df.header "date") lo hi)).isEmpty = true) :
    trendAnalysis df lo hi = TrendView.noData ∧
    ∀ s, trendAnalysis df lo hi ≠ TrendView.view s := by
  have : trendAnalysis df lo hi = TrendView.noData := by
    dsimp only [trendAnalysis]
    rw [if_pos h]
  exact ⟨this, fun s hs => by rw [this] at hs; cases hs⟩

theorem trend_analysis_empty_no_data_witness :
    (emptyDf.rows.filter
      (dateBetween (colIdx emptyDf.header "date") ⟨0, 0⟩ ⟨999999, 0⟩)).isEmpty = true ∧
    (trendAnalysis emptyDf ⟨0, 0⟩ ⟨999999, 0⟩ = TrendView.noData ∧
      ∀ s, trendAnalysis emptyDf ⟨0, 0⟩ ⟨999999, 0⟩ ≠ TrendView.view s) :=
  ⟨by decide, trend_analysis_empty_no_data emptyDf ⟨0, 0⟩ ⟨999999, 0⟩ (by decide)⟩

/-- C2: the duration normalizer is total — a function on all raw inputs
whose result is always either `known = false` or a non-negative number of
minutes — and null, blank, or unrecognized text resolves to
`known = false`. -/
theorem normalize_duration_total_unknown_policy :
    (∀ r : RawDuration,
      (normalizeDuration r).known = false ∨ 0 ≤ (normalizeDuration r).minutes) ∧
    (normalizeDuration RawDuration.null).known = false ∧
    (∀ s, strip s = "" → (normalizeDuration (RawDuration.text s)).known = false) ∧
    (∀ s, parseDurationText s = none →
      (normalizeDuration (RawDuration.text s)).known = false) := by
  have hpnone : ∀ s, parseDurationText s = none →
      (normalizeDuration (RawDuration.text s)).known = false := by
    intro s hp
    simp only [normalizeDuration, hp]
  refine ⟨?_, rfl, ?_, hpnone⟩
  · intro r
    match r with
    | RawDuration.null => exact Or.inl rfl
    | RawDuration.structuredMinutes m =>
      simp only [normalizeDuration]
      by_cases hm : m < 0
      · rw [if_pos hm]
        exact Or.inl rfl
      · rw [if_neg hm]
        exact Or.inr (le_of_not_lt hm)
    | RawDuration.text s =>
      simp only [normalizeDuration]
      rcases hp : parseDurationText s with _ | m
      · exact Or.inl rfl
      · dsimp only
        by_cases hm : m < 0
        · rw [if_pos hm]
          exact Or.inl rfl
        · rw [if_neg hm]
          exact Or.inr (le_of_not_lt hm)
  · intro s hs
    apply hpnone
    simp only [parseDurationText, hs]
    rfl

theorem normalize_duration_total_unknown_policy_witness :
    (strip "   " = "" ∧ (normalizeDuration (RawDuration.text "   ")).known = false) ∧
    (parseDurationText "ninety minutes" = none ∧
      (normalizeDuration (RawDuration.text "ninety minutes")).known = false) :=
  ⟨⟨by decide, normalize_duration_total_unknown_policy.2.2.1 "   " (by decide)⟩,
   ⟨by decide, normalize_duration_total_unknown_policy.2.2.2 "ninety minutes" (by decide)⟩⟩

/-- C1 counterexample: on `c1Table`, whose first row has the unparseable
date `"not a date"`, `load_data` succeeds but returns only one of the two
input rows — the record with the failed date parse is dropped by
`df.dropna(subset=[date_col])`, not retained with a null date. -/
theorem load_data_drops_bad_date_row :
    c1Table.rows.length = 2 ∧
    (toDatetimeCoerce (getCell (c1Table.rows.getD 0 [])
      (colIdx (c1Table.header.map strip) "date"))).isSome = false ∧
    loadData (some c1Table) = Except.ok c1Df ∧
    c1Df.rows.length = 1 := by
  refine ⟨rfl, by decide, by decide, rfl⟩

/-- C1 amended: for every input row whose date field fails to parse, the
date becomes null and the record is then dropped: the loaded collection
has exactly one record per source row with a parseable date. -/
theorem load_data_row_count_parseable_dates (t df : Table)
    (h : loadData (some t) = Except.ok df) :
    df.rows.length =
      (t.rows.filter
        (fun r => (toDatetimeCoerce (getCell r (colIdx df.header "date"))).isSome)).length := by
  obtain ⟨hmiss, rfl⟩ := loadData_ok_iff.mp h
  exact processRows_length t.rows

theorem load_data_row_count_parseable_dates_witness :
    loadData (some c1Table) = Except.ok c1Df ∧
    c1Df.rows.length =
      (c1Table.rows.filter
        (fun r => (toDatetimeCoerce (getCell r (colIdx c1Df.header "date"))).isSome)).length :=
  ⟨by decide, load_data_row_count_parseable_dates c1Table c1Df (by decide)⟩

/-- C5: after a successful load, every metric cell of every record is a
number: the numeric coercion of the corresponding source cell, with 0
substituted when the coercion fails — never null and never non-numeric. -/
theorem load_data_numeric_cells_coerced (t df : Table)
    (h : loadData (some t) = Except.ok df) :
    ∀ r' ∈ df.rows, ∃ r, r ∈ t.rows ∧ ∀ k ∈ numericKeys,
      getCell r' (colIdx df.header k) =
        Cell.num ((toNumericCoerce (getCell r (colIdx df.header k))).getD 0) := by
  obtain ⟨hmiss, rfl⟩ := loadData_ok_iff.mp h
  intro r' hr'
  obtain ⟨r, hr, ts, hparse, hdate, hnum, hauth⟩ := processed_row_cells hmiss hr'
  exact ⟨r, hr, hnum⟩

theorem load_data_numeric_cells_coerced_witness :
    loadData (some c1Table) = Except.ok c1Df ∧
    ∀ r' ∈ c1Df.rows, ∃ r, r ∈ c1Table.rows ∧ ∀ k ∈ numericKeys,
      getCell r' (colIdx c1Df.header k) =
        Cell.num ((toNumericCoerce (getCell r (colIdx c1Df.header k))).getD 0) :=
  ⟨by decide, load_data_numeric_cells_coerced c1Table c1Df (by decide)⟩

/-- C9: after a successful load every record's date cell is a non-null
timestamp normalized to midnight, and the property is inherited by every
subset the provider-analytics filter (date range and author membership,
a pure row selection) produces. -/
theorem load_data_dates_normalized_invariant (t df : Table)
    (h : loadData (some t) = Except.ok df) :
    (∀ r' ∈ df.rows, ∃ ts : Timestamp,
      getCell r' (colIdx df.header "date") = Cell.date ts ∧ ts.secs = 0) ∧
    (∀ (lo hi : Timestamp) (sel : List String),
      ∀ r' ∈ analyticsFilter (colIdx df.header "date") (colIdx df.header "author")
        lo hi sel df.rows,
      ∃ ts : Timestamp,
        getCell r' (colIdx df.header "date") = Cell.date ts ∧ ts.secs = 0) := by
  have hall : ∀ r' ∈ df.rows, ∃ ts : Timestamp,
      getCell r' (colIdx df.header "date") = Cell.date ts ∧ ts.secs = 0 := by
    obtain ⟨hmiss, rfl⟩ := loadData_ok_iff.mp h
    intro r' hr'
    obtain ⟨r, hr, ts, hparse, hdate, hnum, hauth⟩ := processed_row_cells hmiss hr'
    exact ⟨normalizeTs ts, hdate, rfl⟩
  refine ⟨hall, ?_⟩
  intro lo hi sel r' hr'
  exact hall r' (List.mem_filter.mp hr').1

theorem load_data_dates_normalized_invariant_witness :
    loadData (some c1Table) = Except.ok c1Df ∧
    ((∀ r' ∈ c1Df.rows, ∃ ts : Timestamp,
      getCell r' (colIdx c1Df.header "date") = Cell.date ts ∧ ts.secs = 0) ∧
    (∀ (lo hi : Timestamp) (sel : List String),
      ∀ r' ∈ analyticsFilter (colIdx c1Df.header "date") (colIdx c1Df.header "author")
        lo hi sel c1Df.rows,
      ∃ ts : Timestamp,
        getCell r' (colIdx c1Df.header "date") = Cell.date ts ∧ ts.secs = 0)) :=
  ⟨by decide, load_data_dates_normalized_invariant c1Table c1Df (by decide)⟩

/-! ## Case-insensitivity of the author normalization -/

theorem char_toNat_inj {c d : Char} (h : c.toNat = d.toNat) : c = d := by
  apply Char.ext
  unfold Char.toNat at h
  exact UInt32.toNat.inj h

theorem toLower_toNat_of_upper {c : Char} (h : 65 ≤ c.toNat ∧ c.toNat ≤ 90) :
    (Char.toLower c).toNat = c.toNat + 32 := by
  unfold Char.toLower
  rw [if_pos ⟨h.1, h.2⟩, Char.ofNat, dif_pos (Or.inl (by omega))]
  rfl

theorem toLower_of_not_upper {c : Char} (h : ¬(65 ≤ c.toNat ∧ c.toNat ≤ 90)) :
    Char.toLower c = c := by
  unfold Char.toLower
  rw [if_neg h]

theorem toUpper_toNat_of_lower {c : Char} (h : 97 ≤ c.toNat ∧ c.toNat ≤ 122) :
    (Char.toUpper c).toNat = c.toNat - 32 := by
  unfold Char.toUpper
  rw [if_pos ⟨h.1, h.2⟩, Char.ofNat, dif_pos (Or.inl (by omega))]
  rfl

theorem toUpper_of_not_lower {c : Char} (h : ¬(97 ≤ c.toNat ∧ c.toNat ≤ 122)) :
    Char.toUpper c = c := by
  unfold Char.toUpper
  rw [if_neg h]

/-- Two characters with the same lower-casing have the same upper-casing
and the same cased-letter status. -/
theorem lower_eq_upper_eq {c₁ c₂ : Char} (h : Char.toLower c₁ = Char.toLower c₂) :
    Char.toUpper c₁ = Char.toUpper c₂ ∧ isAsciiAlpha c₁ = isAsciiAlpha c₂ := by
  by_cases h₁ : 65 ≤ c₁.toNat ∧ c₁.toNat ≤ 90 <;>
    by_cases h₂ : 65 ≤ c₂.toNat ∧ c₂.toNat ≤ 90
  · -- both upper-case letters
    have e : c₁.toNat = c₂.toNat := by
      have := congrArg Char.toNat h
      rw [toLower_toNat_of_upper h₁, toLower_toNat_of_upper h₂] at this
      omega
    cases char_toNat_inj e
    exact ⟨rfl, rfl⟩
  · -- c₁ upper, c₂ not: then c₂ = toLower c₁, a lower-case letter
    have e : c₂.toNat = c₁.toNat + 32 := by
      have := congrArg Char.toNat h
      rw [toLower_toNat_of_upper h₁, toLower_of_not_upper h₂] at this
      omega
    have hl₂ : 97 ≤ c₂.toNat ∧ c₂.toNat ≤ 122 := by omega
    have hu₁ : Char.toUpper c₁ = c₁ := toUpper_of_not_lower (by omega)
    have hu₂ : Char.toUpper c₂ = c₁ := by
      apply char_toNat_inj
      rw [toUpper_toNat_of_lower hl₂]
      omega
    constructor
    · rw [hu₁, hu₂]
    · unfold isAsciiAlpha
      simp only [decide_eq_decide]
      omega
  · -- c₂ upper, c₁ not (mirror case)
    have e : c₁.toNat = c₂.toNat + 32 := by
      have := congrArg Char.toNat h
      rw [toLower_toNat_of_upper h₂, toLower_of_not_upper h₁] at this
      omega
    have hl₁ : 97 ≤ c₁.toNat ∧ c₁.toNat ≤ 122 := by omega
    have hu₂ : Char.toUpper c₂ = c₂ := toUpper_of_not_lower (by omega)
    have hu₁ : Char.toUpper c₁ = c₂ := by
      apply char_toNat_inj
      rw [toUpper_toNat_of_lower hl₁]
      omega
    constructor
    · rw [hu₁, hu₂]
    · unfold isAsciiAlpha
      simp only [decide_eq_decide]
      omega
  · -- neither is an upper-case letter: toLower is the identity on both
    rw [toLower_of_not_upper h₁, toLower_of_not_upper h₂] at h
    cases h
    exact ⟨rfl, rfl⟩

theorem titleAux_congr : ∀ (l₁ l₂ : List Char) (b : Bool),
    l₁.map Char.toLower = l₂.map Char.toLower → titleAux l₁ b = titleAux l₂ b
  | [], [], _, _ => rfl
  | [], _ :: _, _, h => by cases h
  | _ :: _, [], _, h => by cases h
  | c₁ :: t₁, c₂ :: t₂, b, h => by
    have hc : Char.toLower c₁ = Char.toLower c₂ := by
      have := congrArg (fun l => l.headI) h
      simpa using this
    have ht : t₁.map Char.toLower = t₂.map Char.toLower := by
      have := congrArg List.tail h
      simpa using this
    obtain ⟨hup, hal⟩ := lower_eq_upper_eq hc
    unfold titleAux
    rw [titleAux_congr t₁ t₂ (isAsciiAlpha c₁) ht, hal]
    cases b
    · simp [hup]
    · simp [hc]

/-- Author names whose stripped forms agree up to letter case normalize
identically. -/
theorem normalizeAuthor_congr {s₁ s₂ : String}
    (h : (strip s₁).data.map Char.toLower = (strip s₂).data.map Char.toLower) :
    normalizeAuthor s₁ = normalizeAuthor s₂ := by
  unfold normalizeAuthor titleCase
  exact congrArg String.mk (titleAux_congr _ _ false h)

/-- C6: after a successful load every record's author cell is the source
value (as a string), stripped of surrounding whitespace and title-cased;
consequently two raw names whose stripped forms differ only in letter
case (or only in surrounding whitespace) normalize to the same string. -/
theorem load_data_author_normalized :
    (∀ t df, loadData (some t) = Except.ok df →
      ∀ r' ∈ df.rows, ∃ r, r ∈ t.rows ∧
        getCell r' (colIdx df.header "author") =
          Cell.str (normalizeAuthor (cellToString (getCell r (colIdx df.header "author"))))) ∧
    (∀ s₁ s₂ : String,
      (strip s₁).data.map Char.toLower = (strip s₂).data.map Char.toLower →
      normalizeAuthor s₁ = normalizeAuthor s₂) := by
  constructor
  · intro t df h r' hr'
    obtain ⟨hmiss, rfl⟩ := loadData_ok_iff.mp h
    obtain ⟨r, hr, ts, hparse, hdate, hnum, hauth⟩ := processed_row_cells hmiss hr'
    exact ⟨r, hr, hauth⟩
  · intro s₁ s₂ h
    exact normalizeAuthor_congr h

theorem load_data_author_normalized_witness :
    (loadData (some c1Table) = Except.ok c1Df ∧
      ∀ r' ∈ c1Df.rows, ∃ r, r ∈ c1Table.rows ∧
        getCell r' (colIdx c1Df.header "author") =
          Cell.str (normalizeAuthor (cellToString (getCell r (colIdx c1Df.header "author"))))) ∧
    ((strip "  doe, JANE ").data.map Char.toLower =
        (strip "DOE, jane").data.map Char.toLower ∧
      normalizeAuthor "  doe, JANE " = normalizeAuthor "DOE, jane") :=
  ⟨⟨by decide, load_data_author_normalized.1 c1Table c1Df (by decide)⟩,
   ⟨by decide, load_data_author_normalized.2 "  doe, JANE " "DOE, jane" (by decide)⟩⟩

/-! ## Order lemmas for the sorting pipeline -/

theorem charListLtB_trans : ∀ (a b c : List Char),
    charListLtB a b = true → charListLtB b c = true → charListLtB a c = true
  | [], _, _ :: _, _, _ => rfl
  | [], [], [], _, h2 => by cases h2
  | [], _ :: _, [], _, h2 => by cases h2
  | _ :: _, [], _, h1, _ => by cases h1
  | _ :: _, _ :: _, [], _, h2 => by cases h2
  | a :: as, b :: bs, c :: cs, h1, h2 => by
    unfold charListLtB at h1 h2 ⊢
    by_cases hab : a.toNat < b.toNat
    · by_cases hbc : b.toNat < c.toNat
      · rw [if_pos (by omega)]
      · by_cases hcb : c.toNat < b.toNat
        · rw [if_neg hbc, if_pos hcb] at h2
          cases h2
        · rw [if_pos (by omega)]
    · by_cases hba : b.toNat < a.toNat
      · rw [if_neg hab, if_pos hba] at h1
        cases h1
      · rw [if_neg hab, if_neg hba] at h1
        by_cases hbc : b.toNat < c.toNat
        · rw [if_pos (by omega)]
        · by_cases hcb : c.toNat < b.toNat
          · rw [if_neg hbc, if_pos hcb] at h2
            cases h2
          · rw [if_neg hbc, if_neg hcb] at h2
            rw [if_neg (by omega), if_neg (by omega)]
            exact charListLtB_trans as bs cs h1 h2

theorem charListLtB_eq_of_both_false : ∀ (a b : List Char),
    charListLtB a b = false → charListLtB b a = false → a = b
  | [], [], _, _ => rfl
  | [], _ :: _, h1, _ => by cases h1
  | _ :: _, [], _, h2 => by cases h2
  | a :: as, b :: bs, h1, h2 => by
    unfold charListLtB at h1 h2
    by_cases hab : a.toNat < b.toNat
    · rw [if_pos hab] at h1
      cases h1
    · by_cases hba : b.toNat < a.toNat
      · rw [if_pos hba] at h2
        cases h2
      · rw [if_neg hab, if_neg hba] at h1
        rw [if_neg hba, if_neg hab] at h2
        rw [char_toNat_inj (by omega : a.toNat = b.toNat),
          charListLtB_eq_of_both_false as bs h1 h2]

theorem strLt_trans {a b c : String} (h1 : strLt a b) (h2 : strLt b c) : strLt a c :=
  charListLtB_trans a.data b.data c.data h1 h2

theorem strLt_of_strLe_of_ne {a b : String} (h1 : strLe a b) (h2 : a ≠ b) : strLt a b := by
  unfold strLe at h1
  unfold strLt
  rcases hx : charListLtB a.data b.data with _ | _
  · exfalso
    apply h2
    have hdata := charListLtB_eq_of_both_false a.data b.data hx h1
    cases a
    cases b
    exact congrArg String.mk hdata
  · rfl

theorem strLt_of_not_strLe {a b : String} (h : ¬ strLe a b) : strLt b a := by
  unfold strLe at h
  unfold strLt
  exact eq_true_of_ne_false h

theorem mem_insertOrd {α : Type} {le : α → α → Prop} [DecidableRel le] {x a : α} :
    ∀ {l : List α}, a ∈ insertOrd le x l ↔ a = x ∨ a ∈ l := by
  intro l
  induction l with
  | nil => simp [insertOrd]
  | cons y ys ih =>
    unfold insertOrd
    by_cases hxy : le x y
    · rw [if_pos hxy]
      simp
    · rw [if_neg hxy]
      rw [List.mem_cons, ih, List.mem_cons]
      tauto

theorem mem_sortOrd {α : Type} {le : α → α → Prop} [DecidableRel le] {a : α} :
    ∀ {l : List α}, a ∈ sortOrd le l ↔ a ∈ l := by
  intro l
  induction l with
  | nil => simp [sortOrd]
  | cons y ys ih =>
    unfold sortOrd
    rw [mem_insertOrd, ih, List.mem_cons]

theorem pairwise_insertOrd {α : Type} {le : α → α → Prop} [DecidableRel le]
    (R : α → α → Prop) (htrans : ∀ a b c, R a b → R b c → R a c) (x : α) :
    ∀ (l : List α), l.Pairwise R → (∀ y ∈ l, le x y → R x y) →
      (∀ y ∈ l, ¬ le x y → R y x) → (insertOrd le x l).Pairwise R
  | [], _, _, _ => List.pairwise_singleton R x
  | y :: ys, hp, h1, h2 => by
    obtain ⟨hy, hys⟩ := List.pairwise_cons.mp hp
    unfold insertOrd
    by_cases hxy : le x y
    · rw [if_pos hxy]
      apply List.Pairwise.cons _ hp
      intro z hz
      rcases List.mem_cons.mp hz with he | hz'
      · subst he
        exact h1 z (List.mem_cons_self z ys) hxy
      · exact htrans x y z (h1 y (List.mem_cons_self y ys) hxy) (hy z hz')
    · rw [if_neg hxy]
      apply List.Pairwise.cons
      · intro z hz
        rcases mem_insertOrd.mp hz with he | hz'
        · subst he
          exact h2 y (List.mem_cons_self y ys) hxy
        · exact hy z hz'
      · exact pairwise_insertOrd R htrans x ys hys
          (fun z hz => h1 z (List.mem_cons_of_mem y hz))
          (fun z hz => h2 z (List.mem_cons_of_mem y hz))

theorem uniqueKeys_aux_nodup (l : List String) :
    ∀ acc : List String, acc.Nodup →
      (l.foldl (fun acc a => if a ∈ acc then acc else acc ++ [a]) acc).Nodup := by
  induction l with
  | nil => exact fun acc h => h
  | cons a rest ih =>
    intro acc hacc
    simp only [List.foldl_cons]
    by_cases ha : a ∈ acc
    · rw [if_pos ha]
      exact ih acc hacc
    · rw [if_neg ha]
      apply ih
      simp [List.nodup_append, hacc, ha]

theorem uniqueKeys_nodup (l : List String) : (uniqueKeys l).Nodup :=
  uniqueKeys_aux_nodup l [] List.nodup_nil

theorem sortOrd_strLe_pairwise :
    ∀ l : List String, l.Nodup → (sortOrd strLe l).Pairwise strLt := by
  intro l
  induction l with
  | nil => exact fun _ => List.Pairwise.nil
  | cons x xs ih =>
    intro hnd
    obtain ⟨hx, hxs⟩ := List.nodup_cons.mp hnd
    unfold sortOrd
    apply pairwise_insertOrd strLt (fun a b c hab hbc => strLt_trans hab hbc) x _ (ih hxs)
    · intro y hy hle
      apply strLt_of_strLe_of_ne hle
      intro he
      exact hx (he ▸ mem_sortOrd.mp hy)
    · intro y hy hle
      exact strLt_of_not_strLe hle

theorem pairLexAsc_trans (a b c : String × Rat)
    (h1 : pairLexAsc a b) (h2 : pairLexAsc b c) : pairLexAsc a c := by
  unfold pairLexAsc at *
  rcases h1 with h1 | ⟨h1e, h1s⟩ <;> rcases h2 with h2 | ⟨h2e, h2s⟩
  · exact Or.inl (lt_trans h1 h2)
  · exact Or.inl (h2e ▸ h1)
  · exact Or.inl (h1e ▸ h2)
  · exact Or.inr ⟨h1e.trans h2e, strLt_trans h1s h2s⟩

theorem sortOrd_metricLe_pairwise :
    ∀ l : List (String × Rat), (l.Pairwise fun p q => strLt p.1 q.1) →
      (sortOrd metricLe l).Pairwise pairLexAsc := by
  intro l
  induction l with
  | nil => exact fun _ => List.Pairwise.nil
  | cons x xs ih =>
    intro hp
    obtain ⟨hx, hxs⟩ := List.pairwise_cons.mp hp
    unfold sortOrd
    apply pairwise_insertOrd pairLexAsc pairLexAsc_trans x _ (ih hxs)
    · intro y hy hle
      unfold metricLe at hle
      rcases lt_or_eq_of_le hle with hlt | heq
      · exact Or.inl hlt
      · exact Or.inr ⟨heq, hx y (mem_sortOrd.mp hy)⟩
    · intro y hy hle
      unfold metricLe at hle
      exact Or.inl (lt_of_not_le hle)

theorem groupbyMean_pairwise (aIdx mIdx : Nat) (rows : List (List Cell)) :
    (groupbyMean aIdx mIdx rows).Pairwise (fun p q => strLt p.1 q.1) := by
  unfold groupbyMean
  apply List.Pairwise.map _ _ (sortOrd_strLe_pairwise _ (uniqueKeys_nodup _))
  intro a b hab
  exact hab

theorem sortOrd_metricLe_pairwise_le :
    ∀ l : List (String × Rat), (sortOrd metricLe l).Pairwise (fun p q => p.2 ≤ q.2) := by
  intro l
  induction l with
  | nil => exact List.Pairwise.nil
  | cons x xs ih =>
    unfold sortOrd
    apply pairwise_insertOrd (fun p q => p.2 ≤ q.2)
      (fun a b c hab hbc => le_trans hab hbc) x _ ih
    · intro y hy hle
      exact hle
    · intro y hy hle
      unfold metricLe at hle
      exact le_of_not_le hle

/-- C7 amended: the sorted provider summary is always ordered by the
metric in descending order (a property of any correct sort); groups with
equal metric values do not in general appear in first-occurrence order —
for summaries of at most 16 groups, where the sort routine the program
uses is a stable insertion sort, they appear in descending group-key
order instead, because `groupby` lists groups in ascending key order and
the descending sort reverses the stable ascending sort.  For larger
summaries the tie order is implementation-defined. -/
theorem provider_summary_sorted_desc_ties_key_desc :
    (∀ (aIdx mIdx : Nat) (rows : List (List Cell)),
      (providerSummarySorted aIdx mIdx rows).Pairwise (fun p q => q.2 ≤ p.2)) ∧
    (∀ (aIdx mIdx : Nat) (rows : List (List Cell)),
      (groupbyMean aIdx mIdx rows).length ≤ 16 →
      (providerSummarySorted aIdx mIdx rows).Pairwise pairLexDesc) := by
  constructor
  · intro aIdx mIdx rows
    unfold providerSummarySorted sortValuesDesc
    rw [List.pairwise_reverse]
    exact sortOrd_metricLe_pairwise_le _
  · intro aIdx mIdx rows hsize
    unfold providerSummarySorted sortValuesDesc
    rw [List.pairwise_reverse]
    exact sortOrd_metricLe_pairwise _ (groupbyMean_pairwise aIdx mIdx rows)

theorem provider_summary_sorted_desc_ties_key_desc_witness :
    (groupbyMean 0 1 c7Rows).length ≤ 16 ∧
    (providerSummarySorted 0 1 c7Rows).Pairwise pairLexDesc :=
  ⟨by decide, provider_summary_sorted_desc_ties_key_desc.2 0 1 c7Rows (by decide)⟩

/-- C7 counterexample: on `c7Rows` the providers occur in first-occurrence
order Bob, Alice, Carol with equal metric values, but the sorted summary
comes out Carol, Bob, Alice — groups with equal metric values do not
appear in order of their first occurrence in the input collection. -/
theorem provider_summary_tie_order_counterexample :
    uniqueKeys (c7Rows.map (rowAuthor 0)) = ["Bob", "Alice", "Carol"] ∧
    providerSummarySorted 0 1 c7Rows = [("Carol", 5), ("Bob", 5), ("Alice", 5)] ∧
    providerSummarySorted 0 1 c7Rows ≠ [("Bob", 5), ("Alice", 5), ("Carol", 5)] := by
  have hkeys : uniqueKeys (c7Rows.map (rowAuthor 0)) = ["Bob", "Alice", "Carol"] := by
    decide
  have hsort : sortOrd strLe ["Bob", "Alice", "Carol"] = ["Alice", "Bob", "Carol"] := by
    decide
  have hg : groupbyMean 0 1 c7Rows = [("Alice", 5), ("Bob", 5), ("Carol", 5)] := by
    unfold groupbyMean
    rw [hkeys, hsort]
    simp only [List.map]
    norm_num [meanList, rowMetricVal, getCell]
  have hfinal : providerSummarySorted 0 1 c7Rows =
      [("Carol", 5), ("Bob", 5), ("Alice", 5)] := by
    unfold providerSummarySorted sortValuesDesc
    rw [hg]
    decide
  refine ⟨hkeys, hfinal, ?_⟩
  rw [hfinal]
  decide
